import Mathlib

/-!
Shallow embedding of the core of the `tascord/wiki` note store
(`src/helpers.rs`, `src/wiki.rs`) and proofs about it.

The embedding models:
 - `Information` (the record type) and its JSON serialization / parsing,
   standing in for the external `serde_json` library;
 - the persistence-relevant state of `Locked<T>` (`helpers.rs`): the
   in-memory value, the backing file's byte contents and the file cursor,
   with `Locked::new`, `Locked::load` and the `Drop` of `WritableKey`;
 - the atomic-step interleaving semantics of `Locked::write`'s spin-then-claim
   acquisition protocol;
 - `Wiki::commit`, `Wiki::recall`, `Wiki::recall_by_tag` and the bulk-load
   loop of `Wiki::load_or_create`.

Uuid is modelled as `Nat`.  File contents are modelled as `String`.
-/

namespace Twk

/-- The record entity `Information` of `src/wiki.rs`: an id (Uuid, modelled
as `Nat`), an ordered tag list, a name and a body text. -/
structure Information where
  id : Nat
  tags : List String
  name : String
  data : String
deriving DecidableEq, Repr

/-- Modelled from the spec: serde_json string serialization (file contents
are a structured, human-readable serialization of the fields).  Strings are
emitted between double quotes; the model assumes field texts free of the
quote character, which every input considered here satisfies. -/
def serString (s : String) : String :=
  "\"" ++ s ++ "\""

/-- Modelled from the spec: serialization of the tag list as a JSON array. -/
def serTags : List String → String
  | [] => ""
  | [t] => serString t
  | t :: ts => serString t ++ "," ++ serTags ts

/-- Modelled from the spec: serde_json serialization of an `Information`
record to the backing file (serde_json::to_string_pretty in
`Locked::new` / the `WritableKey` drop; whitespace is immaterial to the
claims, so the model emits the compact form). -/
def serInfo (i : Information) : String :=
  "\x7b\"id\":" ++ toString i.id ++ ",\"tags\":[" ++ serTags i.tags
    ++ "],\"name\":" ++ serString i.name ++ ",\"data\":" ++ serString i.data ++ "\x7d"

/-- Consume an expected literal from the input, returning the rest. -/
def parseLit : List Char → List Char → Option (List Char)
  | [], cs => some cs
  | _ :: _, [] => none
  | l :: ls, c :: cs => if c = l then parseLit ls cs else none

/-- Digits to the natural number they denote. -/
def digitsToNat (ds : List Char) : Nat :=
  ds.foldl (fun a c => a * 10 + (c.toNat - 48)) 0

/-- Parse a decimal natural number. -/
def parseNat (cs : List Char) : Option (Nat × List Char) :=
  let digits := cs.takeWhile (·.isDigit)
  let rest := cs.dropWhile (·.isDigit)
  if digits = [] then none else some (digitsToNat digits, rest)

/-- Parse a double-quoted string (no escape sequences, as in `serString`). -/
def parseString : List Char → Option (String × List Char)
  | '"' :: cs =>
    match cs.dropWhile (· ≠ '"') with
    | '"' :: rest => some (String.mk (cs.takeWhile (· ≠ '"')), rest)
    | _ => none
  | _ => none

/-- Parse a `]`-terminated list of quoted strings (fuelled recursion). -/
def parseTagsAux : Nat → List Char → Option (List String × List Char)
  | 0, _ => none
  | _ + 1, ']' :: cs => some ([], cs)
  | fuel + 1, cs =>
    match parseString cs with
    | none => none
    | some (t, ',' :: rest) =>
      (parseTagsAux fuel rest).map (fun p => (t :: p.1, p.2))
    | some (t, ']' :: rest) => some ([t], rest)
    | some _ => none

/-- Modelled from the spec: serde_json deserialization of an `Information`
record, the inverse of `serInfo`.  As `serde_json::from_reader`, it fails on
malformed content and on trailing data after the value. -/
def parseInfo (s : String) : Option Information := do
  let cs := s.toList
  let cs ← parseLit "\x7b\"id\":".toList cs
  let (i, cs) ← parseNat cs
  let cs ← parseLit ",\"tags\":[".toList cs
  let (tags, cs) ← parseTagsAux (cs.length + 1) cs
  let cs ← parseLit ",\"name\":".toList cs
  let (nm, cs) ← parseString cs
  let cs ← parseLit ",\"data\":".toList cs
  let (dt, cs) ← parseString cs
  let cs ← parseLit "\x7d".toList cs
  if cs = [] then pure ⟨i, tags, nm, dt⟩ else none

/-- Persistence-relevant state of a `Locked<Information>` cell
(`src/helpers.rs`): the in-memory value, the backing file's contents, and
the file handle's cursor (the offset at which the next `write_all` lands). -/
structure Locked where
  inMemory : Information
  file : String
  cursor : Nat
deriving DecidableEq, Repr

/-- Semantics of `write_all` on a file handle: overwrite bytes starting at
the cursor, extending the file as needed. -/
def writeAllAt (contents : String) (cursor : Nat) (s : String) : String :=
  String.mk (contents.toList.take cursor ++ s.toList
    ++ contents.toList.drop (cursor + s.toList.length))

/-- `Locked::new` (`src/helpers.rs` lines 31-52): open the backing file with
create+truncate, serialize the initial value into it, and keep the value in
memory.  After the initial write the file cursor sits at end of file. -/
def Locked.new (data : Information) : Locked :=
  { inMemory := data
    file := serInfo data
    cursor := (serInfo data).toList.length }

/-- `Locked::load` (`src/helpers.rs` lines 54-72): open the existing file
read/write and deserialize its contents; fails if the contents do not parse.
`from_reader` consumes the stream, leaving the cursor at end of file. -/
def Locked.load (file : String) : Option Locked :=
  (parseInfo file).map fun d =>
    { inMemory := d, file := file, cursor := file.toList.length }

/-- Mutation of the in-memory value through `DerefMut` on a `WritableKey`
(`src/helpers.rs`): only the in-memory value changes; the file is untouched
until the guard is dropped. -/
def Locked.setValue (st : Locked) (v : Information) : Locked :=
  { st with inMemory := v }

/-- `Drop for WritableKey` (`src/helpers.rs` lines 136-146): serialize the
current in-memory value and `write_all` it to the backing file at the
current cursor.  The code performs no seek and no truncate before the
write. -/
def dropWritableKey (st : Locked) : Locked :=
  { st with
    file := writeAllAt st.file st.cursor (serInfo st.inMemory)
    cursor := st.cursor + (serInfo st.inMemory).toList.length }

/-- Program counter of a thread executing `Locked::write`
(`src/helpers.rs` lines 86-93).  The spin loop
`while writer.load() || readers.load() > 0` is two separate atomic loads
(`checkWriter`, then `checkReaders` by short-circuit); `claim` is the
`writer.fetch_or(true)` whose previous value the code discards; `holding`
means the `WritableKey` has been returned to the caller. -/
inductive WriterPc
  | checkWriter
  | checkReaders
  | claim
  | holding
deriving DecidableEq, Repr

/-- Shared atomics of one `Locked` cell plus the program counters of two
threads, both executing `Locked::write`. -/
structure LockSys where
  writer : Bool
  readers : Nat
  pc0 : WriterPc
  pc1 : WriterPc
deriving DecidableEq, Repr

/-- One atomic step of a thread running `Locked::write`, given the current
values of the cell's atomics; returns the new `writer` flag and the new
program counter. -/
def writerStep (writer : Bool) (readers : Nat) : WriterPc → Bool × WriterPc
  | .checkWriter => (writer, if writer then .checkWriter else .checkReaders)
  | .checkReaders => (writer, if readers > 0 then .checkWriter else .claim)
  | .claim => (true, .holding)
  | .holding => (writer, .holding)

/-- Interleaving semantics: the scheduled thread (`false` = thread 0,
`true` = thread 1) performs one atomic step. -/
def sysStep (s : LockSys) (tid : Bool) : LockSys :=
  if tid then
    let r := writerStep s.writer s.readers s.pc1
    { s with writer := r.1, pc1 := r.2 }
  else
    let r := writerStep s.writer s.readers s.pc0
    { s with writer := r.1, pc0 := r.2 }

/-- Initial state: no writer, no readers, both threads about to enter the
spin loop of `Locked::write`. -/
def initSys : LockSys :=
  { writer := false, readers := 0, pc0 := .checkWriter, pc1 := .checkWriter }

/-- Run a schedule (a list of thread ids) from the initial state. -/
def runSchedule (sched : List Bool) : LockSys :=
  sched.foldl sysStep initSys

/-- Greedy leftmost subsequence matching: the positions (indices into the
haystack, starting at `i`) at which the needle's characters are found in
order, or `none` when the needle is not a subsequence of the haystack. -/
def subMatchPositions : List Char → List Char → Nat → Option (List Nat)
  | _, [], _ => some []
  | [], _ :: _, _ => none
  | h :: hs, n :: ns, i =>
    if h = n then (subMatchPositions hs ns (i + 1)).map (fun ps => i :: ps)
    else subMatchPositions hs (n :: ns) (i + 1)

/-- Number of adjacent pairs in a position list that are consecutive
(contiguous-run bonus). -/
def adjBonus : List Nat → Nat
  | a :: b :: rest => (if b = a + 1 then 1 else 0) + adjBonus (b :: rest)
  | _ => 0

/-- Modelled from the spec: the external `nucleo_matcher` fuzzy scorer
(`Matcher::fuzzy_match`).  A match exists only if every character of the
needle appears in the haystack, in order, as a not-necessarily-contiguous
subsequence (case-sensitive); the score is deterministic and rewards longer
contiguous runs: needle length plus one per consecutive matched pair. -/
def fuzzyMatch (haystack needle : String) : Option Nat :=
  (subMatchPositions haystack.toList needle.toList 0).map
    (fun ps => needle.toList.length + adjBonus ps)

/-- The subsequence-match condition: every character of the needle appears
in the haystack, in order, not necessarily contiguously. -/
def isSubseq : List Char → List Char → Bool
  | [], _ => true
  | _ :: _, [] => false
  | n :: ns, h :: hs => if n = h then isSubseq ns hs else isSubseq (n :: ns) hs

/-- Tag filter of `Wiki::recall` (`src/wiki.rs`): with a filter, a record is
skipped when its tag list does not contain the tag (exact string match). -/
def tagAllows (tagFilter : Option String) (i : Information) : Bool :=
  match tagFilter with
  | none => true
  | some t => i.tags.contains t

/-- Score of one record in `Wiki::recall`:
`name_score.or(data_score)` on the two fuzzy matches. -/
def scoreRecord (query : String) (i : Information) : Option Nat :=
  (fuzzyMatch i.name query).or (fuzzyMatch i.data query)

/-- Insert one scored record into a descending-sorted list, after every
element of score greater than or equal to its own. -/
def insertDesc (x : Nat × Information) : List (Nat × Information) → List (Nat × Information)
  | [] => [x]
  | y :: ys => if y.1 ≤ x.1 then x :: y :: ys else y :: insertDesc x ys

/-- Stable descending sort by score, modelling
`scored_results.sort_by(|a, b| b.0.cmp(&a.0))` (`src/wiki.rs` lines
164-165): Rust's `sort_by` is a stable sort, and a stable sort's output is
uniquely determined by the comparator and the input order, so this
insertion sort computes exactly the source's result. -/
def sortDescByScore : List (Nat × Information) → List (Nat × Information)
  | [] => []
  | x :: xs => insertDesc x (sortDescByScore xs)

/-- The store (`Wiki` in `src/wiki.rs`): its name and the insertion-ordered
sequence of guarded cells.  The storage path plays no role in the claims
about in-memory behaviour and is elided. -/
structure Wiki where
  name : String
  info : List Locked
deriving DecidableEq, Repr

/-- The in-memory record values of the store's cells, as observed one cell
at a time under shared guards (a shared-guard read returns the cell's
in-memory value; the source clones it into an owned copy). -/
def Wiki.records (w : Wiki) : List Information :=
  w.info.map (fun c => c.inMemory)

/-- The scored loop plus the sort of `Wiki::recall` (`src/wiki.rs` lines
146-165): for each record (read under a shared guard), apply the tag
filter, score with `name_score.or(data_score)`, keep the record when a
score exists, and stably sort by descending score. -/
def Wiki.recallScored (w : Wiki) (query : String)
    (tagFilter : Option String) : List (Nat × Information) :=
  sortDescByScore (w.records.filterMap (fun i =>
    if tagAllows tagFilter i then (scoreRecord query i).map (fun s => (s, i))
    else none))

/-- `Wiki::recall` (`src/wiki.rs`): the scored results with the scores
stripped. -/
def Wiki.recall (w : Wiki) (query : String)
    (tagFilter : Option String) : List Information :=
  (w.recallScored query tagFilter).map (fun p => p.2)

/-- `Wiki::recall_by_tag` (`src/wiki.rs` lines 170-187): push a copy of
every record whose tag list contains the tag, in iteration order. -/
def Wiki.recallByTag (w : Wiki) (tag : String) : List Information :=
  w.records.foldl (fun results i =>
    if i.tags.contains tag then results ++ [i] else results) []

/-- `Wiki::commit` (`src/wiki.rs` lines 108-122): build an `Information`
with `name = data = fact` and the given tags under a freshly generated id
(`Uuid::new_v4`, an external randomness source modelled as the `id`
argument), construct a `Locked` cell via `Locked::new` (which persists the
value synchronously), append it to the sequence, and return the id. -/
def Wiki.commit (w : Wiki) (id : Nat) (fact : String) (tags : List String) :
    Wiki × Nat :=
  let i : Information := { id := id, tags := tags, name := fact, data := fact }
  ({ w with info := w.info ++ [Locked.new i] }, id)

/-- A directory entry as seen by the bulk load: a file name and the file's
contents. -/
structure DirEntry where
  name : String
  contents : String
deriving DecidableEq, Repr

/-- Model of Rust's `Path::extension` on a file name: the portion after the
last dot that is not the leading character; `none` when the only dot, if
any, is the leading character. -/
def extension (fileName : String) : Option String :=
  match fileName.toList with
  | [] => none
  | _ :: rest =>
    if rest.contains '.' then
      some (String.mk (rest.reverse.takeWhile (fun c => c ≠ '.')).reverse)
    else none

/-- The existing-directory branch of `Wiki::load_or_create` (`src/wiki.rs`
lines 77-95): keep the entries whose extension is exactly `json`, load each
through `Locked::load`, and drop — without surfacing any error — every file
whose load fails (`if let Ok(locked) = ... \x7b push \x7d`).  The source
performs the loads on one thread per file and collects them in completion
order; this model fixes the iteration order, and the claims proved about it
are order-independent. -/
def loadDir (entries : List DirEntry) : List Locked :=
  (entries.filter (fun e => extension e.name = some "json")).filterMap
    (fun e => Locked.load e.contents)

/-- Membership in an `insertDesc` result. -/
theorem mem_insertDesc (x a : Nat × Information) :
    ∀ l, a ∈ insertDesc x l ↔ a = x ∨ a ∈ l := by
  intro l
  induction l with
  | nil => simp [insertDesc]
  | cons y ys ih =>
    by_cases hle : y.1 ≤ x.1 <;> simp [insertDesc, hle, ih]
    tauto

/-- Membership is preserved by the stable sort. -/
theorem mem_sortDescByScore (a : Nat × Information) :
    ∀ l, a ∈ sortDescByScore l ↔ a ∈ l := by
  intro l
  induction l with
  | nil => simp [sortDescByScore]
  | cons x xs ih => simp [sortDescByScore, mem_insertDesc, ih]

/-- Inserting into a descending-sorted list keeps it descending-sorted. -/
theorem insertDesc_sorted (x : Nat × Information) :
    ∀ l, List.Pairwise (fun a b => b.1 ≤ a.1) l →
      List.Pairwise (fun a b => b.1 ≤ a.1) (insertDesc x l) := by
  intro l
  induction l with
  | nil => intro _; simp [insertDesc]
  | cons y ys ih =>
    intro hp
    rw [List.pairwise_cons] at hp
    obtain ⟨hy, hys⟩ := hp
    by_cases hle : y.1 ≤ x.1
    · simp only [insertDesc, if_pos hle]
      refine List.pairwise_cons.mpr ⟨?_, List.pairwise_cons.mpr ⟨hy, hys⟩⟩
      intro b hb
      rcases List.mem_cons.mp hb with rfl | hb
      · exact hle
      · exact Nat.le_trans (hy b hb) hle
    · simp only [insertDesc, if_neg hle]
      refine List.pairwise_cons.mpr ⟨?_, ih hys⟩
      intro b hb
      rcases (mem_insertDesc x b ys).mp hb with rfl | hb
      · exact Nat.le_of_lt (Nat.lt_of_not_le hle)
      · exact hy b hb

/-- The stable sort's output is descending-sorted by score. -/
theorem sortDescByScore_sorted :
    ∀ l, List.Pairwise (fun a b => b.1 ≤ a.1) (sortDescByScore l) := by
  intro l
  induction l with
  | nil => simp [sortDescByScore]
  | cons x xs ih =>
    simp only [sortDescByScore]
    exact insertDesc_sorted x _ ih

/-- Filtering one score class through an insertion: the inserted element
lands in front of its own class (every element it passes over has a
strictly larger score) and no other class moves. -/
theorem filter_insertDesc (x : Nat × Information) (s : Nat) :
    ∀ l : List (Nat × Information),
      (insertDesc x l).filter (fun y => y.1 == s)
        = if x.1 = s then x :: l.filter (fun y => y.1 == s)
          else l.filter (fun y => y.1 == s) := by
  intro l
  induction l with
  | nil => by_cases h : x.1 = s <;> simp [insertDesc, h]
  | cons y ys ih =>
    by_cases hle : y.1 ≤ x.1
    · simp only [insertDesc, if_pos hle]
      by_cases h : x.1 = s <;> simp [h, List.filter_cons]
    · simp only [insertDesc, if_neg hle]
      have hgt : x.1 < y.1 := Nat.lt_of_not_le hle
      by_cases h : x.1 = s
      · have hy : ¬y.1 = s := by omega
        simp [List.filter_cons, hy, h, ih]
      · simp [List.filter_cons, h, ih]

/-- Stability of the sort: the sublist of any one score class is unchanged
by the sort, i.e. equal-scored elements keep their relative input order. -/
theorem sortDescByScore_filter (s : Nat) :
    ∀ l, (sortDescByScore l).filter (fun y => y.1 == s)
      = l.filter (fun y => y.1 == s) := by
  intro l
  induction l with
  | nil => simp [sortDescByScore]
  | cons x xs ih =>
    rw [sortDescByScore, filter_insertDesc, ih, List.filter_cons]
    by_cases h : x.1 = s <;> simp [h]

/-- The push-into-accumulator loop of `recall_by_tag` computes a filter. -/
theorem foldl_push_filter (p : Information → Bool) :
    ∀ (l : List Information) (acc : List Information),
      l.foldl (fun results i => if p i then results ++ [i] else results) acc
        = acc ++ l.filter p := by
  intro l
  induction l with
  | nil => intro acc; simp
  | cons x xs ih =>
    intro acc
    by_cases h : p x <;> simp [List.foldl_cons, h, ih, List.filter_cons]

/-- A successful greedy match means the needle is a subsequence of the
haystack. -/
theorem subMatchPositions_isSubseq :
    ∀ (hs ns : List Char) (i : Nat) (ps : List Nat),
      subMatchPositions hs ns i = some ps → isSubseq ns hs = true := by
  intro hs
  induction hs with
  | nil =>
    intro ns i ps h
    cases ns with
    | nil => rfl
    | cons n ns => simp [subMatchPositions] at h
  | cons c hs ih =>
    intro ns i ps heq
    cases ns with
    | nil => rfl
    | cons n ns =>
      by_cases hc : c = n
      · subst hc
        cases hx : subMatchPositions hs ns (i + 1) with
        | none => simp [subMatchPositions, hx] at heq
        | some qs =>
          simp [isSubseq, ih ns (i + 1) qs hx]
      · simp only [subMatchPositions, if_neg hc] at heq
        have hrec := ih (n :: ns) (i + 1) ps heq
        have hnc : ¬n = c := fun h => hc h.symm
        simp [isSubseq, if_neg hnc, hrec]

/-- A fuzzy match exists only when the needle is a subsequence of the
haystack. -/
theorem fuzzyMatch_isSubseq (haystack needle : String) (s : Nat)
    (h : fuzzyMatch haystack needle = some s) :
    isSubseq needle.toList haystack.toList = true := by
  unfold fuzzyMatch at h
  cases hx : subMatchPositions haystack.toList needle.toList 0 with
  | none => rw [hx] at h; simp at h
  | some ps => exact subMatchPositions_isSubseq _ _ _ _ hx

/-- A record scores only when the query is a subsequence of its name or of
its data. -/
theorem scoreRecord_subseq (query : String) (i : Information) (s : Nat)
    (h : scoreRecord query i = some s) :
    isSubseq query.toList i.name.toList = true
      ∨ isSubseq query.toList i.data.toList = true := by
  unfold scoreRecord at h
  cases hn : fuzzyMatch i.name query with
  | some a => exact Or.inl (fuzzyMatch_isSubseq _ _ _ hn)
  | none =>
    rw [hn] at h
    simp [Option.or] at h
    exact Or.inr (fuzzyMatch_isSubseq _ _ _ h)

/-- A concrete record used to evaluate the persistence path. -/
def recC1 : Information := { id := 3, tags := ["t"], name := "n", data := "d" }

/-- The same record after an edit made through the exclusive guard. -/
def recC1Edit : Information := { id := 3, tags := ["t"], name := "n2", data := "d2" }

/-- C1: evaluation of the code at the failing input.  Create a cell, edit
the value under the exclusive guard, and release the guard: the release
does serialize the full current value, but `write_all` lands at the file
cursor (left at end of file) with no seek and no truncate, so the new
serialization is appended after the old contents.  The on-disk contents are
the old serialization followed by the new one, not the in-memory value's
serialization, and a subsequent `Locked::load` of the file fails — refuting
the claim that the file is replaced and disk equals memory after release. -/
theorem c1_release_appends_instead_of_replacing :
    (dropWritableKey ((Locked.new recC1).setValue recC1Edit)).file
        = serInfo recC1 ++ serInfo recC1Edit
      ∧ (dropWritableKey ((Locked.new recC1).setValue recC1Edit)).file
          ≠ serInfo (dropWritableKey ((Locked.new recC1).setValue recC1Edit)).inMemory
      ∧ Locked.load (dropWritableKey ((Locked.new recC1).setValue recC1Edit)).file
          = none := by
  decide

/-- A record whose data field matches a query better than its name field. -/
def recC2 : Information := { id := 7, tags := [], name := "axb", data := "ab" }

/-- C2: evaluation of the code at the failing input.  For the query "ab",
the name "axb" scores 2 and the data "ab" scores 3, yet
`name_score.or(data_score)` keeps the name's score, so the record is ranked
with score 2 — refuting the claim that the better (larger) of the two
scores is used when both fields match. -/
theorem c2_name_score_shadows_better_data_score :
    fuzzyMatch recC2.name "ab" = some 2
      ∧ fuzzyMatch recC2.data "ab" = some 3
      ∧ scoreRecord "ab" recC2 = some 2
      ∧ (Wiki.mk "w" [Locked.new recC2]).recallScored "ab" none = [(2, recC2)] := by
  decide

/-- C3: evaluation of the code at the failing schedule.  Two threads both
run `Locked::write` on the same cell; under the interleaving in which each
thread passes the spin-loop checks before either performs the
`fetch_or(true)`, both threads reach the `holding` state — two concurrently
granted exclusive guards, refuting the claim that at most one exclusive
guard is held at a time. -/
theorem c3_two_threads_both_hold_exclusive :
    (runSchedule [false, false, true, true, false, true]).pc0 = WriterPc.holding
      ∧ (runSchedule [false, false, true, true, false, true]).pc1 = WriterPc.holding := by
  decide

/-- C4: the sequence returned by `recall` is the scored results in stably
descending score order: the scored results are pairwise descending, and for
every score the sublist of results carrying that score equals the sublist
of the unsorted scored records carrying it, so equal-scored records keep
their relative order from the underlying collection. -/
theorem c4_recall_sorted_descending_and_stable (w : Wiki) (query : String)
    (tagFilter : Option String) :
    w.recall query tagFilter = (w.recallScored query tagFilter).map (fun p => p.2)
      ∧ List.Pairwise (fun a b => b.1 ≤ a.1) (w.recallScored query tagFilter)
      ∧ ∀ s : Nat,
          (w.recallScored query tagFilter).filter (fun y => y.1 == s)
            = (w.records.filterMap (fun i =>
                if tagAllows tagFilter i then
                  (scoreRecord query i).map (fun sc => (sc, i))
                else none)).filter (fun y => y.1 == s) := by
  refine ⟨rfl, ?_, ?_⟩
  · exact sortDescByScore_sorted _
  · intro s
    exact sortDescByScore_filter s _

/-- C5: `recall_by_tag` returns exactly the records whose tag list contains
an exact match for the tag, in the collection's iteration order, with no
scoring and no sorting: it equals a plain filter of the records. -/
theorem c5_recallByTag_is_exact_filter (w : Wiki) (tag : String) :
    w.recallByTag tag = w.records.filter (fun i => i.tags.contains tag) := by
  unfold Wiki.recallByTag
  simpa using foldl_push_filter (fun i => i.tags.contains tag) w.records []

/-- C6: every record returned by `recall` with no tag filter has at least
one of its two text fields in which every character of the query appears,
in order, as a not-necessarily-contiguous subsequence. -/
theorem c6_recall_members_match_subsequence (w : Wiki) (query : String)
    (i : Information) (hmem : i ∈ w.recall query none) :
    isSubseq query.toList i.name.toList = true
      ∨ isSubseq query.toList i.data.toList = true := by
  unfold Wiki.recall Wiki.recallScored at hmem
  rcases List.mem_map.mp hmem with ⟨p, hp, hpi⟩
  have hp2 := (mem_sortDescByScore p _).mp hp
  rcases List.mem_filterMap.mp hp2 with ⟨j, _, hfj⟩
  simp only [tagAllows, if_pos] at hfj
  cases hs : scoreRecord query j with
  | none => rw [hs] at hfj; simp at hfj
  | some s =>
    rw [hs] at hfj
    simp only [Option.map_some'] at hfj
    injection hfj with hsj
    have hji : j = i := by rw [← hpi, ← hsj]
    rw [← hji]
    exact scoreRecord_subseq query j s hs

/-- Witness for C6: the store holding one record named "alice" with body
"bob" returns that record for the query "ali", and indeed "ali" is a
subsequence of one of its fields. -/
def recC6 : Information := { id := 9, tags := [], name := "alice", data := "bob" }

/-- C6 witness: instantiation at a concrete store, query and record. -/
theorem c6_witness :
    isSubseq "ali".toList recC6.name.toList = true
      ∨ isSubseq "ali".toList recC6.data.toList = true :=
  c6_recall_members_match_subsequence (Wiki.mk "w" [Locked.new recC6]) "ali" recC6
    (by decide)

/-- C7: `commit` returns the generated id, builds the record with
`name = data = fact` and exactly the given tags, persists it synchronously
through fresh cell construction (the new cell's file holds the record's
serialization), and appends the cell at the end of the sequence; with a
fresh id, id-uniqueness of the store is preserved. -/
theorem c7_commit_builds_persists_appends (w : Wiki) (id : Nat) (fact : String)
    (tags : List String)
    (hfresh : id ∉ w.info.map (fun c => c.inMemory.id))
    (hnodup : (w.info.map (fun c => c.inMemory.id)).Nodup) :
    (w.commit id fact tags).2 = id
      ∧ (w.commit id fact tags).1.info
          = w.info ++ [Locked.new { id := id, tags := tags, name := fact, data := fact }]
      ∧ (Locked.new { id := id, tags := tags, name := fact, data := fact }).inMemory
          = { id := id, tags := tags, name := fact, data := fact }
      ∧ (Locked.new { id := id, tags := tags, name := fact, data := fact }).file
          = serInfo { id := id, tags := tags, name := fact, data := fact }
      ∧ (w.commit id fact tags).1.info.getLast?
          = some (Locked.new { id := id, tags := tags, name := fact, data := fact })
      ∧ ((w.commit id fact tags).1.info.map (fun c => c.inMemory.id)).Nodup := by
  refine ⟨rfl, rfl, rfl, rfl, ?_, ?_⟩
  · simp [Wiki.commit]
  · simp only [Wiki.commit, List.map_append, List.map_cons, List.map_nil]
    rw [List.nodup_append]
    refine ⟨hnodup, List.nodup_singleton _, ?_⟩
    intro a ha hb
    simp only [Locked.new, List.mem_singleton] at hb
    rw [hb] at ha
    exact hfresh ha

/-- C7 witness: committing to the empty store with a concrete id. -/
theorem c7_witness :
    ((Wiki.mk "w" []).commit 5 "f" ["t"]).2 = 5 :=
  (c7_commit_builds_persists_appends (Wiki.mk "w" []) 5 "f" ["t"] (by simp)
    (by simp)).1

/-- C8: committing the record (name = data = "Buy milk", tags = ["errand"])
and loading the resulting backing file from disk yields a record with
identical id, name, tags and data. -/
theorem c8_commit_then_load_round_trip :
    ((Wiki.mk "w" []).commit 1 "Buy milk" ["errand"]).1.info.map
        (fun c => (Locked.load c.file).map (fun c2 => c2.inMemory))
      = [some { id := 1, tags := ["errand"], name := "Buy milk", data := "Buy milk" }] := by
  decide

/-- C9: in the bulk load, the resulting cells are exactly those obtained
from entries with the `json` extension whose load succeeded; an entry whose
load fails contributes nothing and propagates no error (the load returns a
plain store in every case). -/
theorem c9_failed_load_silently_swallowed (entries : List DirEntry) (c : Locked)
    (e : DirEntry) (hbad : Locked.load e.contents = none) :
    (c ∈ loadDir entries
        ↔ ∃ e2, e2 ∈ entries ∧ extension e2.name = some "json"
            ∧ Locked.load e2.contents = some c)
      ∧ loadDir (e :: entries) = loadDir entries := by
  constructor
  · unfold loadDir
    simp only [List.mem_filterMap, List.mem_filter]
    constructor
    · rintro ⟨e2, ⟨he2, hext⟩, hload⟩
      exact ⟨e2, he2, by simpa using hext, hload⟩
    · rintro ⟨e2, he2, hext, hload⟩
      exact ⟨e2, ⟨he2, by simpa using hext⟩, hload⟩
  · unfold loadDir
    by_cases hj : extension e.name = some "json"
    · simp [List.filter_cons, hj, List.filterMap_cons, hbad]
    · simp [List.filter_cons, hj]

/-- C9 witness: a malformed `json` file is skipped without error. -/
theorem c9_witness :
    loadDir [⟨"bad.json", "oops"⟩] = loadDir [] :=
  (c9_failed_load_silently_swallowed []
    (Locked.new { id := 0, tags := [], name := "", data := "" })
    ⟨"bad.json", "oops"⟩ (by decide)).2

/-- C10: the bulk load considers only entries whose extension is exactly
`json`: loading a directory equals loading its `json`-extension subset, and
prepending any entry with a different (or missing) extension leaves the
result unchanged — such a file is never loaded, never added, and never
causes an error. -/
theorem c10_only_json_extension_files_loaded (entries : List DirEntry)
    (e : DirEntry) (hext : extension e.name ≠ some "json") :
    loadDir entries
        = loadDir (entries.filter (fun e2 => extension e2.name = some "json"))
      ∧ loadDir (e :: entries) = loadDir entries := by
  constructor
  · unfold loadDir
    rw [List.filter_filter]
    simp
  · unfold loadDir
    simp [List.filter_cons, hext]

/-- C10 witness: a `txt` file in the store directory is ignored. -/
theorem c10_witness :
    loadDir [⟨"notes.txt", "hello"⟩] = loadDir [] :=
  (c10_only_json_extension_files_loaded [] ⟨"notes.txt", "hello"⟩ (by decide)).2

end Twk
